import Mathlib

/-!
Formal model of the PassVault repository.

Byte strings are modelled as `List Nat`.  The model covers the byte-level
vault file protocol of `src/vault/core.py` together with the padding codec
of `src/pvlt/utils.py`, and the entry table layer of `src/pass_vault.py`.
The external cryptographic primitives (the AES block permutation, SHA-512
and PBKDF2) are opaque parameters of the model, bundled in `CryptoPrims`;
the properties the proofs need of them (a block decrypt that inverts the
block encrypt on 16-byte blocks, fixed output sizes) are collected in
`GoodPrims`.
-/

namespace PVLT

/-- Bytewise XOR of two byte strings, truncating to the shorter one. -/
def xorBytes (a b : List Nat) : List Nat := List.zipWith Nat.xor a b

theorem length_xorBytes (a b : List Nat) :
    (xorBytes a b).length = min a.length b.length := by
  simp [xorBytes]

theorem natXor_cancel_right (x c : Nat) : Nat.xor (Nat.xor x c) c = x := by
  show (x ^^^ c) ^^^ c = x
  rw [Nat.xor_assoc, Nat.xor_self, Nat.xor_zero]

theorem natXor_cancel_left (x y : Nat) : Nat.xor x (Nat.xor x y) = y := by
  show x ^^^ (x ^^^ y) = y
  rw [← Nat.xor_assoc, Nat.xor_self, Nat.zero_xor]

theorem xorBytes_xorBytes (a : List Nat) : ∀ b : List Nat,
    a.length = b.length → xorBytes a (xorBytes a b) = b := by
  induction a with
  | nil =>
    intro b h
    cases b with
    | nil => rfl
    | cons y ys => simp at h
  | cons x xs ih =>
    intro b h
    cases b with
    | nil => simp at h
    | cons y ys =>
      simp only [xorBytes, List.zipWith_cons_cons, List.cons.injEq] at *
      exact ⟨natXor_cancel_left x y, ih ys (by simpa using h)⟩

theorem xorBytes_right_cancel (a : List Nat) : ∀ b c : List Nat,
    a.length = c.length → b.length = c.length →
    xorBytes a c = xorBytes b c → a = b := by
  induction a with
  | nil =>
    intro b c ha hb _
    cases c with
    | nil =>
      cases b with
      | nil => rfl
      | cons _ _ => simp at hb
    | cons _ _ => simp at ha
  | cons x xs ih =>
    intro b c ha hb h
    cases c with
    | nil => simp at ha
    | cons z zs =>
      cases b with
      | nil => simp at hb
      | cons y ys =>
        simp only [xorBytes, List.zipWith_cons_cons, List.cons.injEq] at h
        have hx : x = y := by
          have h2 := congrArg (fun t => Nat.xor t z) h.1
          simpa only [natXor_cancel_right] using h2
        have hxs : xs = ys := ih ys zs (by simpa using ha) (by simpa using hb) h.2
        rw [hx, hxs]

/-- Split a byte string into 16-byte AES blocks; the last block may be
shorter when the length is not a multiple of 16.  The recursion is
fuel-indexed so that the function is structural and evaluates by kernel
reduction. -/
def chunksF : Nat → List Nat → List (List Nat)
  | _, [] => []
  | 0, _ :: _ => []
  | fuel + 1, a :: l => (a :: l.take 15) :: chunksF fuel (l.drop 15)

def chunks16 (l : List Nat) : List (List Nat) := chunksF l.length l

theorem chunksF_congr : ∀ f₁ f₂ l, l.length ≤ f₁ → l.length ≤ f₂ →
    chunksF f₁ l = chunksF f₂ l := by
  intro f₁
  induction f₁ with
  | zero =>
    intro f₂ l h₁ _
    have : l = [] := List.eq_nil_of_length_eq_zero (Nat.le_zero.mp h₁)
    subst this
    cases f₂ <;> rfl
  | succ f ih =>
    intro f₂ l h₁ h₂
    cases l with
    | nil => cases f₂ <;> rfl
    | cons a l =>
      cases f₂ with
      | zero => simp at h₂
      | succ f₂ =>
        simp only [List.length_cons] at h₁ h₂
        simp only [chunksF, List.cons.injEq, true_and]
        exact ih f₂ (l.drop 15) (by simp only [List.length_drop]; omega)
          (by simp only [List.length_drop]; omega)

theorem chunks16_nil : chunks16 [] = [] := rfl

theorem chunks16_cons (a : Nat) (l : List Nat) :
    chunks16 (a :: l) = (a :: l.take 15) :: chunks16 (l.drop 15) := by
  show chunksF (l.length + 1) (a :: l) = _
  simp only [chunksF, List.cons.injEq, true_and]
  exact chunksF_congr l.length (l.drop 15).length (l.drop 15)
    (by simp only [List.length_drop]; omega) le_rfl

theorem chunks16_flatten_aux : ∀ n l, l.length ≤ n → (chunks16 l).flatten = l := by
  intro n
  induction n with
  | zero =>
    intro l h
    have : l = [] := List.eq_nil_of_length_eq_zero (Nat.le_zero.mp h)
    subst this; rfl
  | succ n ih =>
    intro l h
    cases l with
    | nil => rfl
    | cons a l =>
      simp only [List.length_cons] at h
      rw [chunks16_cons]
      simp only [List.flatten_cons]
      rw [ih (l.drop 15) (by simp only [List.length_drop]; omega)]
      simp [List.take_append_drop]

/-- Reassembling the chunks gives back the original byte string. -/
theorem chunks16_flatten (l : List Nat) : (chunks16 l).flatten = l :=
  chunks16_flatten_aux l.length l le_rfl

theorem chunks16_mem_len_aux : ∀ n l, l.length ≤ n → l.length % 16 = 0 →
    ∀ b ∈ chunks16 l, b.length = 16 := by
  intro n
  induction n with
  | zero =>
    intro l h _ b hb
    have : l = [] := List.eq_nil_of_length_eq_zero (Nat.le_zero.mp h)
    subst this; simp [chunks16_nil] at hb
  | succ n ih =>
    intro l h hmod b hb
    cases l with
    | nil => simp [chunks16_nil] at hb
    | cons a l =>
      simp only [List.length_cons] at h hmod
      have hlen : 15 ≤ l.length := by omega
      rw [chunks16_cons] at hb
      rcases List.mem_cons.mp hb with h1 | h1
      · subst h1
        simp only [List.length_cons, List.length_take]
        omega
      · exact ih (l.drop 15) (by simp only [List.length_drop]; omega)
          (by simp only [List.length_drop]; omega) b h1

/-- On inputs whose length is a multiple of 16 every chunk has length 16. -/
theorem chunks16_mem_len (l : List Nat) (hmod : l.length % 16 = 0) :
    ∀ b ∈ chunks16 l, b.length = 16 :=
  chunks16_mem_len_aux l.length l le_rfl hmod

theorem chunks16_append_aux : ∀ n (a b : List Nat), a.length ≤ n →
    a.length % 16 = 0 → chunks16 (a ++ b) = chunks16 a ++ chunks16 b := by
  intro n
  induction n with
  | zero =>
    intro a b h _
    have : a = [] := List.eq_nil_of_length_eq_zero (Nat.le_zero.mp h)
    subst this; simp [chunks16_nil]
  | succ n ih =>
    intro a b h hmod
    cases a with
    | nil => simp [chunks16_nil]
    | cons x l =>
      simp only [List.length_cons] at h hmod
      have hlen : 15 ≤ l.length := by omega
      rw [List.cons_append, chunks16_cons, chunks16_cons]
      have ht : (l ++ b).take 15 = l.take 15 := by
        rw [List.take_append_eq_append_take]
        have h0 : 15 - l.length = 0 := by omega
        simp [h0]
      have hd : (l ++ b).drop 15 = l.drop 15 ++ b := by
        rw [List.drop_append_eq_append_drop]
        have h0 : 15 - l.length = 0 := by omega
        simp [h0]
      rw [ht, hd, ih (l.drop 15) b (by simp only [List.length_drop]; omega)
        (by simp only [List.length_drop]; omega)]
      simp

/-- Chunking distributes over append when the first part is block-aligned. -/
theorem chunks16_append (a b : List Nat) (hmod : a.length % 16 = 0) :
    chunks16 (a ++ b) = chunks16 a ++ chunks16 b :=
  chunks16_append_aux a.length a b le_rfl hmod

/-- Chunking the concatenation of 16-byte blocks recovers the blocks. -/
theorem chunks16_flatten_of_blocks : ∀ L : List (List Nat),
    (∀ b ∈ L, b.length = 16) → chunks16 L.flatten = L := by
  intro L
  induction L with
  | nil => intro _; rfl
  | cons b L ih =>
    intro h
    have hb : b.length = 16 := h b (List.mem_cons_self _ _)
    cases b with
    | nil => simp at hb
    | cons x t =>
      have ht : t.length = 15 := by simpa using hb
      simp only [List.flatten_cons, List.cons_append]
      rw [chunks16_cons]
      have h1 : (t ++ L.flatten).take 15 = t := by
        rw [List.take_append_eq_append_take]
        simp [ht]
      have h2 : (t ++ L.flatten).drop 15 = L.flatten := by
        rw [List.drop_append_eq_append_drop]
        simp [ht]
      rw [h1, h2, ih (fun b hb => h b (List.mem_cons_of_mem _ hb))]

/-- Total length of a concatenation of 16-byte blocks. -/
theorem flatten_const_len : ∀ L : List (List Nat),
    (∀ b ∈ L, b.length = 16) → L.flatten.length = 16 * L.length := by
  intro L
  induction L with
  | nil => intro _; rfl
  | cons b L ih =>
    intro h
    simp only [List.flatten_cons, List.length_append, List.length_cons]
    rw [h b (List.mem_cons_self _ _), ih (fun b hb => h b (List.mem_cons_of_mem _ hb))]
    ring

/-- CBC encryption over a list of blocks, threading the chain state
`prev` (initially the IV); returns the ciphertext blocks together with the
final chain state, mirroring the stateful AES-CBC cipher object of
pycryptodome: a later `encrypt` call continues from the returned state. -/
def cbcEnc (E : List Nat → List Nat) (prev : List Nat) :
    List (List Nat) → List (List Nat) × List Nat
  | [] => ([], prev)
  | p :: ps =>
    let c := E (xorBytes prev p)
    let r := cbcEnc E c ps
    (c :: r.1, r.2)

/-- CBC decryption over a list of ciphertext blocks with chain state
`prev` (initially the IV). -/
def cbcDec (D : List Nat → List Nat) (prev : List Nat) :
    List (List Nat) → List (List Nat)
  | [] => []
  | c :: cs => xorBytes prev (D c) :: cbcDec D c cs

theorem cbcEnc_fst_length (E : List Nat → List Nat) :
    ∀ (ps : List (List Nat)) (prev : List Nat),
    (cbcEnc E prev ps).1.length = ps.length := by
  intro ps
  induction ps with
  | nil => intro prev; rfl
  | cons p ps ih => intro prev; simp [cbcEnc, ih]

theorem cbcEnc_mem_len (E : List Nat → List Nat)
    (hE : ∀ b, b.length = 16 → (E b).length = 16) :
    ∀ (ps : List (List Nat)) (prev : List Nat), prev.length = 16 →
    (∀ p ∈ ps, p.length = 16) →
    ∀ c ∈ (cbcEnc E prev ps).1, c.length = 16 := by
  intro ps
  induction ps with
  | nil => intro prev _ _ c hc; simp [cbcEnc] at hc
  | cons p ps ih =>
    intro prev hprev hps c hc
    have hp : p.length = 16 := hps p (List.mem_cons_self _ _)
    have hc0 : (E (xorBytes prev p)).length = 16 :=
      hE _ (by rw [length_xorBytes, hprev, hp]; simp)
    simp only [cbcEnc, List.mem_cons] at hc
    rcases hc with h1 | h1
    · rw [h1]; exact hc0
    · exact ih (E (xorBytes prev p)) hc0 (fun q hq => hps q (List.mem_cons_of_mem _ hq)) c h1

theorem cbcEnc_snd (E : List Nat → List Nat) :
    ∀ (ps : List (List Nat)) (prev : List Nat),
    (cbcEnc E prev ps).2 = (cbcEnc E prev ps).1.getLastD prev := by
  intro ps
  induction ps with
  | nil => intro prev; rfl
  | cons p ps ih =>
    intro prev
    simp only [cbcEnc, List.getLastD_cons]
    exact ih (E (xorBytes prev p))

theorem cbcDec_append (D : List Nat → List Nat) :
    ∀ (cs ds : List (List Nat)) (prev : List Nat),
    cbcDec D prev (cs ++ ds) = cbcDec D prev cs ++ cbcDec D (cs.getLastD prev) ds := by
  intro cs
  induction cs with
  | nil => intro ds prev; rfl
  | cons c cs ih =>
    intro ds prev
    simp only [List.cons_append, cbcDec, List.getLastD_cons, List.cons.injEq, true_and]
    exact ih ds c

/-- CBC decryption inverts CBC encryption on 16-byte blocks. -/
theorem cbcDec_cbcEnc (E D : List Nat → List Nat)
    (hE : ∀ b, b.length = 16 → (E b).length = 16)
    (hD : ∀ b, b.length = 16 → D (E b) = b) :
    ∀ (ps : List (List Nat)) (prev : List Nat), prev.length = 16 →
    (∀ p ∈ ps, p.length = 16) →
    cbcDec D prev (cbcEnc E prev ps).1 = ps := by
  intro ps
  induction ps with
  | nil => intro prev _ _; rfl
  | cons p ps ih =>
    intro prev hprev hps
    have hp : p.length = 16 := hps p (List.mem_cons_self _ _)
    have hxl : (xorBytes prev p).length = 16 := by
      rw [length_xorBytes, hprev, hp]; simp
    simp only [cbcEnc, cbcDec, List.cons.injEq]
    constructor
    · rw [hD _ hxl]
      exact xorBytes_xorBytes prev p (by omega)
    · exact ih (E (xorBytes prev p)) (hE _ hxl)
        (fun q hq => hps q (List.mem_cons_of_mem _ hq))

theorem cbcDec_mem_len (D : List Nat → List Nat)
    (hD : ∀ b, b.length = 16 → (D b).length = 16) :
    ∀ (cs : List (List Nat)) (prev : List Nat), prev.length = 16 →
    (∀ c ∈ cs, c.length = 16) →
    ∀ d ∈ cbcDec D prev cs, d.length = 16 := by
  intro cs
  induction cs with
  | nil => intro prev _ _ d hd; simp [cbcDec] at hd
  | cons c cs ih =>
    intro prev hprev hcs d hd
    have hc : c.length = 16 := hcs c (List.mem_cons_self _ _)
    simp only [cbcDec, List.mem_cons] at hd
    rcases hd with h1 | h1
    · rw [h1, length_xorBytes, hprev, hD _ hc]; simp
    · exact ih c hc (fun q hq => hcs q (List.mem_cons_of_mem _ hq)) d h1

theorem cbcDec_length (D : List Nat → List Nat) :
    ∀ (cs : List (List Nat)) (prev : List Nat),
    (cbcDec D prev cs).length = cs.length := by
  intro cs
  induction cs with
  | nil => intro prev; rfl
  | cons c cs ih => intro prev; simp [cbcDec, ih]

theorem getLastD_mem_or (L : List (List Nat)) :
    ∀ d, L.getLastD d = d ∨ L.getLastD d ∈ L := by
  induction L with
  | nil => intro d; exact Or.inl rfl
  | cons a L ih =>
    intro d
    rw [List.getLastD_cons]
    rcases ih a with h | h
    · exact Or.inr (by rw [h]; exact List.mem_cons_self _ _)
    · exact Or.inr (List.mem_cons_of_mem _ h)

/-! ## The padding codec (`pad` / `unpad` from `src/pvlt/utils.py`) -/

/-- Padding size computed by the source as `(bs - len(x)) % bs` with
Python integer semantics (`Int.emod`), replaced by `bs` when it is 0. -/
def padSize (len bs : Nat) : Nat :=
  let ps := (((bs : Int) - (len : Int)) % (bs : Int)).toNat
  if ps = 0 then bs else ps

/-- UTF-8 encoding of a single code point: Python `chr(c).encode()`. -/
def utf8Char (c : Nat) : List Nat :=
  if c < 128 then [c]
  else if c < 2048 then [192 + c / 64, 128 + c % 64]
  else if c < 65536 then [224 + c / 4096, 128 + c / 64 % 64, 128 + c % 64]
  else [240 + c / 262144, 128 + c / 4096 % 64, 128 + c / 64 % 64, 128 + c % 64]

/-- `pad` from `src/pvlt/utils.py`: appends `(chr(ps) * ps).encode()`,
i.e. `ps` copies of the UTF-8 encoding of the code point `ps`. -/
def pad (x : List Nat) (bs : Nat) : List Nat :=
  x ++ (List.replicate (padSize x.length bs) (utf8Char (padSize x.length bs))).flatten

/-- `unpad` from `src/pvlt/utils.py`: Python `x[:-x[-1]]`.  `none` models
the `IndexError` raised on an empty input; a last byte of value `0` yields
the empty string because Python `x[:-0]` is `x[:0]`. -/
def unpad (x : List Nat) : Option (List Nat) :=
  match x.getLast? with
  | none => none
  | some p => some (if p = 0 then [] else x.take (x.length - p))

theorem padSize_eq (len bs : Nat) (h : 0 < bs) :
    padSize len bs = if len % bs = 0 then bs else bs - len % bs := by
  unfold padSize
  have hrlt : len % bs < bs := Nat.mod_lt len h
  have hq : (len : Int) = (bs : Int) * ((len / bs : Nat) : Int) + ((len % bs : Nat) : Int) := by
    exact_mod_cast (Nat.div_add_mod len bs).symm
  have h1 : ((bs : Int) - (len : Int)) % (bs : Int)
      = (-(((len % bs : Nat)) : Int)) % (bs : Int) := by
    have h2 : ((bs : Int) - (len : Int))
        = (-(((len % bs : Nat)) : Int)) + (bs : Int) * (1 - ((len / bs : Nat) : Int)) := by
      rw [hq]; ring
    rw [h2, Int.add_mul_emod_self_left]
  rw [h1]
  by_cases hr : len % bs = 0
  · simp [hr]
  · have h3 : (-(((len % bs : Nat)) : Int)) % (bs : Int) = (bs : Int) - ((len % bs : Nat) : Int) := by
      have h4 : (-(((len % bs : Nat)) : Int))
          = ((bs : Int) - ((len % bs : Nat) : Int)) + (bs : Int) * (-1) := by ring
      rw [h4, Int.add_mul_emod_self_left]
      exact Int.emod_eq_of_lt (by omega) (by omega)
    rw [h3]
    have h5 : ((bs : Int) - ((len % bs : Nat) : Int)).toNat = bs - len % bs := by omega
    rw [h5]
    have h6 : ¬(bs - len % bs = 0) := by omega
    simp [hr, h6]

theorem padSize_pos (len bs : Nat) (h : 0 < bs) : 1 ≤ padSize len bs := by
  rw [padSize_eq len bs h]
  have := Nat.mod_lt len h
  split <;> omega

theorem padSize_le (len bs : Nat) (h : 0 < bs) : padSize len bs ≤ bs := by
  rw [padSize_eq len bs h]
  split <;> omega

theorem flatten_replicate_singleton (n a : Nat) :
    (List.replicate n ([a] : List Nat)).flatten = List.replicate n a := by
  induction n with
  | zero => rfl
  | succ n ih => simp [List.replicate_succ, ih]

/-- For a block size of at most 127 every padding byte encodes as itself,
so `pad` appends `ps` bytes each of value `ps`. -/
theorem pad_eq_replicate (x : List Nat) (bs : Nat) (h1 : 1 ≤ bs) (h2 : bs ≤ 127) :
    pad x bs = x ++ List.replicate (padSize x.length bs) (padSize x.length bs) := by
  unfold pad
  have hle : padSize x.length bs ≤ bs := padSize_le x.length bs (by omega)
  have hc : utf8Char (padSize x.length bs) = [padSize x.length bs] := by
    unfold utf8Char
    have : padSize x.length bs < 128 := by omega
    simp [this]
  rw [hc, flatten_replicate_singleton]

theorem pad_length (x : List Nat) (bs : Nat) (h1 : 1 ≤ bs) (h2 : bs ≤ 127) :
    (pad x bs).length = x.length + padSize x.length bs := by
  rw [pad_eq_replicate x bs h1 h2]
  simp

theorem pad_length_mod (x : List Nat) (bs : Nat) (h1 : 1 ≤ bs) (h2 : bs ≤ 127) :
    (pad x bs).length % bs = 0 := by
  rw [pad_length x bs h1 h2, padSize_eq x.length bs (by omega)]
  by_cases hr : x.length % bs = 0
  · simp only [hr, if_true]
    rw [Nat.add_mod_right, hr]
  · simp only [hr, if_false]
    have h3 : x.length + (bs - x.length % bs) = bs * (x.length / bs) + bs := by
      have := Nat.div_add_mod x.length bs
      have := Nat.mod_lt x.length (show 0 < bs by omega)
      omega
    rw [h3]
    have h4 : bs * (x.length / bs) + bs = bs + bs * (x.length / bs) := by ring
    rw [h4, Nat.add_mul_mod_self_left, Nat.mod_self]

/-- Round trip of the padding codec for block sizes up to 127. -/
theorem unpad_pad (x : List Nat) (bs : Nat) (h1 : 1 ≤ bs) (h2 : bs ≤ 127) :
    unpad (pad x bs) = some x := by
  set ps := padSize x.length bs with hps
  have hpos : 1 ≤ ps := padSize_pos x.length bs (by omega)
  have hrep : pad x bs = x ++ List.replicate ps ps := pad_eq_replicate x bs h1 h2
  have hsplit : pad x bs = (x ++ List.replicate (ps - 1) ps) ++ [ps] := by
    rw [hrep]
    have hr2 : List.replicate ps ps = List.replicate (ps - 1) ps ++ [ps] := by
      obtain ⟨m, hm⟩ : ∃ m, ps = m + 1 := ⟨ps - 1, by omega⟩
      rw [hm, List.replicate_succ']
      simp
    rw [hr2, List.append_assoc]
  unfold unpad
  rw [hsplit, List.getLast?_concat]
  have hlen : ((x ++ List.replicate (ps - 1) ps) ++ [ps]).length = x.length + ps := by
    simp; omega
  have hzero : ¬(ps = 0) := by omega
  simp only [hzero, if_false, hlen]
  have htake : x.length + ps - ps = x.length := by omega
  rw [htake, ← hsplit, hrep]
  rw [List.take_append_eq_append_take]
  simp

/-- Unpad on any byte string with a nonzero final byte `p` strips the last
`p` bytes. -/
theorem unpad_strips (y : List Nat) (p : Nat) (hl : y.getLast? = some p) (hp : p ≠ 0) :
    unpad y = some (y.take (y.length - p)) := by
  unfold unpad
  rw [hl]
  simp [hp]

/-! ## The vault file protocol (`VaultCore` in `src/vault/core.py`) -/

/-- The external cryptographic primitives used by `VaultCore`:
`encBlock`/`decBlock` are one AES block encryption/decryption under a
given key, `sha512` is the SHA-512 digest, `kdf` is PBKDF2 applied to the
master password and a salt (iteration count and key size are fixed in the
source, so they are not parameters here). -/
structure CryptoPrims where
  encBlock : List Nat → List Nat → List Nat
  decBlock : List Nat → List Nat → List Nat
  sha512 : List Nat → List Nat
  kdf : String → List Nat → List Nat

/-- The facts about the primitives the verification relies on: block
operations are 16-byte permutations inverse to each other, SHA-512
digests are 64 bytes. -/
structure GoodPrims (P : CryptoPrims) : Prop where
  enc_len : ∀ k b, b.length = 16 → (P.encBlock k b).length = 16
  dec_len : ∀ k b, b.length = 16 → (P.decBlock k b).length = 16
  dec_enc : ∀ k b, b.length = 16 → P.decBlock k (P.encBlock k b) = b
  sha_len : ∀ x, (P.sha512 x).length = 64

/-- Error taxonomy of the repository, plus the uncaught Python exceptions
the source can raise (`typeError` for `dict.pop()` with no argument,
`indexError` for `unpad(b'')`, `valueError` for `AES.new` with a bad IV,
`keyError` for a missing dict key). -/
inductive VaultErr where
  | noVaultFileProvided
  | vaultFileDoesNotExist
  | invalidVaultFormat
  | vaultFileExists
  | vaultMasterPasswordIncorrect
  | corruptedVault
  | entryAlreadyExists
  | entryDoesNotExist
  | keyCollisionWithBuiltin
  | noPasswordForEntry
  | typeError
  | indexError
  | valueError
  | keyError
  deriving DecidableEq

/-- State of the world seen by `VaultCore`: the vault file contents (or
`none` when the file does not exist) and the stream of bytes the random
source will deliver next. -/
structure VaultState where
  file : Option (List Nat)
  rng : List Nat
  deriving DecidableEq

/-- The 4-byte magic `b'PVLT'`. -/
def VAULT_MAGIC : List Nat := [80, 86, 76, 84]

/-- `VaultCore._encrypt_vault`: pad the data, CBC-encrypt it, hash the
ciphertext, then encrypt the hash continuing the same CBC chain.  Returns
`(enc_data, enc_vault_hash, vault_hash)`. -/
def encryptVault (P : CryptoPrims) (key iv data : List Nat) :
    List Nat × List Nat × List Nat :=
  let r1 := cbcEnc (P.encBlock key) iv (chunks16 (pad data 16))
  let encData := r1.1.flatten
  let vaultHash := P.sha512 encData
  let r2 := cbcEnc (P.encBlock key) r1.2 (chunks16 vaultHash)
  (encData, r2.1.flatten, vaultHash)

/-- The raw CBC decryption of `VaultCore._decrypt_vault` (the
`cipher.decrypt(enc_data)` call). -/
def decryptBytesCBC (P : CryptoPrims) (key iv encData : List Nat) : List Nat :=
  (cbcDec (P.decBlock key) iv (chunks16 encData)).flatten

/-- `VaultCore._decrypt_vault`: returns the unpadded data and the last 64
decrypted bytes.  `valueError` models the uncaught `ValueError` of
`AES.new` on an IV that is not 16 bytes; `corruptedVault` the caught
`ValueError` of `cipher.decrypt` on input not a multiple of the block
size; `indexError` the uncaught `IndexError` of `unpad` on empty input
(which the source runs before the tag comparison). -/
def decryptVault (P : CryptoPrims) (key iv encData : List Nat) :
    Except VaultErr (List Nat × List Nat) :=
  if iv.length = 16 then
    if encData.length % 16 = 0 then
      let data := decryptBytesCBC P key iv encData
      match unpad (data.take (data.length - 64)) with
      | none => .error .indexError
      | some u => .ok (u, data.drop (data.length - 64))
    else .error .corruptedVault
  else .error .valueError

/-- Salt field of a vault file: bytes 4..11. -/
def fileSalt (c : List Nat) : List Nat := (c.drop 4).take 8

/-- IV field of a vault file: bytes 12..27. -/
def fileIV (c : List Nat) : List Nat := (c.drop 12).take 16

/-- The encrypted region (`ciphertext ++ encrypted tag`): everything after
the 28-byte header except the trailing 64-byte plain tag. -/
def fileEncRegion (c : List Nat) : List Nat :=
  ((c.drop 28).take ((c.drop 28).length - 64))

/-- The stored plain integrity tag: the last 64 bytes of the file. -/
def filePlainTag (c : List Nat) : List Nat :=
  ((c.drop 28).drop ((c.drop 28).length - 64))

/-- The ciphertext proper: the encrypted region minus the 64-byte
encrypted tag. -/
def fileCiphertext (c : List Nat) : List Nat :=
  (fileEncRegion c).take ((fileEncRegion c).length - 64)

/-- The last 64 bytes of the CBC decryption of the encrypted region —
`dec_vault_hash` in `VaultCore._decrypt_vault`. -/
def decryptedTag (P : CryptoPrims) (pw : String) (c : List Nat) : List Nat :=
  let d := decryptBytesCBC P (P.kdf pw (fileSalt c)) (fileIV c) (fileEncRegion c)
  d.drop (d.length - 64)

/-- The decrypted bytes before the tag — the part that gets unpadded. -/
def decryptedBody (P : CryptoPrims) (pw : String) (c : List Nat) : List Nat :=
  let d := decryptBytesCBC P (P.kdf pw (fileSalt c)) (fileIV c) (fileEncRegion c)
  d.take (d.length - 64)

/-- `VaultCore._read_from_vault_file` on file contents `c`: split off
salt, iv, encrypted region and stored tag, derive the key, decrypt, and
compare the decrypted tag with the stored tag. -/
def readFromVaultFile (P : CryptoPrims) (pw : String) (c : List Nat) :
    Except VaultErr (List Nat) :=
  match decryptVault P (P.kdf pw (fileSalt c)) (fileIV c) (fileEncRegion c) with
  | .error e => .error e
  | .ok du =>
    if du.2 = filePlainTag c then .ok du.1
    else .error .vaultMasterPasswordIncorrect

/-- `VaultCore._write_to_vault_file`: draw a fresh 8-byte salt and
16-byte IV from the random source, derive the key, encrypt, and write
`MAGIC + salt + iv + enc_data + enc_vault_hash + vault_hash`.  Returns
the new file contents and the remaining random stream. -/
def writeToVaultFile (P : CryptoPrims) (pw : String) (data rng : List Nat) :
    List Nat × List Nat :=
  let salt := rng.take 8
  let key := P.kdf pw salt
  let iv := (rng.drop 8).take 16
  let e := encryptVault P key iv data
  (VAULT_MAGIC ++ salt ++ iv ++ e.1 ++ e.2.1 ++ e.2.2, (rng.drop 8).drop 16)

/-- `VaultCore.read`: check existence and magic, read and decrypt, then
rewrite the whole file with a fresh salt and IV before returning. -/
def vaultRead (P : CryptoPrims) (pw : String) (s : VaultState) :
    Except VaultErr (List Nat × VaultState) :=
  match s.file with
  | none => .error .vaultFileDoesNotExist
  | some c =>
    if c.take 4 = VAULT_MAGIC then
      match readFromVaultFile P pw c with
      | .error e => .error e
      | .ok data =>
        let w := writeToVaultFile P pw data s.rng
        .ok (data, ⟨some w.1, w.2⟩)
    else .error .invalidVaultFormat

/-- `VaultCore.write`: check existence and magic, then rewrite the file
unconditionally with a fresh salt and IV. -/
def vaultWrite (P : CryptoPrims) (pw : String) (data : List Nat) (s : VaultState) :
    Except VaultErr VaultState :=
  match s.file with
  | none => .error .vaultFileDoesNotExist
  | some c =>
    if c.take 4 = VAULT_MAGIC then
      let w := writeToVaultFile P pw data s.rng
      .ok ⟨some w.1, w.2⟩
    else .error .invalidVaultFormat

theorem parse_vault_file (salt iv ct etag tag : List Nat)
    (hs : salt.length = 8) (hiv : iv.length = 16)
    (he : etag.length = 64) (ht : tag.length = 64) :
    (VAULT_MAGIC ++ salt ++ iv ++ ct ++ etag ++ tag).take 4 = VAULT_MAGIC ∧
    fileSalt (VAULT_MAGIC ++ salt ++ iv ++ ct ++ etag ++ tag) = salt ∧
    fileIV (VAULT_MAGIC ++ salt ++ iv ++ ct ++ etag ++ tag) = iv ∧
    fileEncRegion (VAULT_MAGIC ++ salt ++ iv ++ ct ++ etag ++ tag) = ct ++ etag ∧
    filePlainTag (VAULT_MAGIC ++ salt ++ iv ++ ct ++ etag ++ tag) = tag ∧
    fileCiphertext (VAULT_MAGIC ++ salt ++ iv ++ ct ++ etag ++ tag) = ct := by
  have hm : VAULT_MAGIC.length = 4 := rfl
  have hd4 : (VAULT_MAGIC ++ salt ++ iv ++ ct ++ etag ++ tag).drop 4
      = salt ++ iv ++ ct ++ etag ++ tag :=
    List.drop_left' hm
  have hd12 : (VAULT_MAGIC ++ salt ++ iv ++ ct ++ etag ++ tag).drop 12
      = iv ++ ct ++ etag ++ tag := by
    rw [show VAULT_MAGIC ++ salt ++ iv ++ ct ++ etag ++ tag
        = (VAULT_MAGIC ++ salt) ++ (iv ++ ct ++ etag ++ tag) by
      simp [List.append_assoc]]
    exact List.drop_left' (by simp [hm, hs])
  have hd28 : (VAULT_MAGIC ++ salt ++ iv ++ ct ++ etag ++ tag).drop 28
      = ct ++ etag ++ tag := by
    rw [show VAULT_MAGIC ++ salt ++ iv ++ ct ++ etag ++ tag
        = (VAULT_MAGIC ++ salt ++ iv) ++ (ct ++ etag ++ tag) by
      simp [List.append_assoc]]
    exact List.drop_left' (by simp [hm, hs, hiv])
  have hgroup : ct ++ etag ++ tag = (ct ++ etag) ++ tag := by
    simp [List.append_assoc]
  have hregion : fileEncRegion (VAULT_MAGIC ++ salt ++ iv ++ ct ++ etag ++ tag)
      = ct ++ etag := by
    unfold fileEncRegion
    rw [hd28, hgroup]
    have hL : ((ct ++ etag) ++ tag).length - 64 = (ct ++ etag).length := by
      simp only [List.length_append, ht]
      omega
    rw [hL]
    exact List.take_left _ _
  refine ⟨?_, ?_, ?_, hregion, ?_, ?_⟩
  · exact List.take_left' hm
  · unfold fileSalt
    rw [hd4, show salt ++ iv ++ ct ++ etag ++ tag
        = salt ++ (iv ++ ct ++ etag ++ tag) by simp [List.append_assoc],
      List.take_left' hs]
  · unfold fileIV
    rw [hd12, show iv ++ ct ++ etag ++ tag
        = iv ++ (ct ++ etag ++ tag) by simp [List.append_assoc],
      List.take_left' hiv]
  · unfold filePlainTag
    rw [hd28, hgroup]
    have hL : ((ct ++ etag) ++ tag).length - 64 = (ct ++ etag).length := by
      simp only [List.length_append, ht]
      omega
    rw [hL]
    exact List.drop_left _ _
  · unfold fileCiphertext
    rw [hregion]
    have hL : (ct ++ etag).length - 64 = ct.length := by
      simp only [List.length_append, he]
      omega
    rw [hL]
    exact List.take_left _ _

theorem encryptVault_ct_length (P : CryptoPrims) (hP : GoodPrims P)
    (key iv data : List Nat) (hiv : iv.length = 16) :
    (encryptVault P key iv data).1.length = (pad data 16).length := by
  have hpadmod : (pad data 16).length % 16 = 0 :=
    pad_length_mod data 16 (by omega) (by omega)
  have hblocks := chunks16_mem_len (pad data 16) hpadmod
  have hctmem := cbcEnc_mem_len (P.encBlock key) (hP.enc_len key)
    (chunks16 (pad data 16)) iv hiv hblocks
  have hunf : (encryptVault P key iv data).1
      = (cbcEnc (P.encBlock key) iv (chunks16 (pad data 16))).1.flatten := rfl
  rw [hunf, flatten_const_len _ hctmem, cbcEnc_fst_length]
  conv_rhs => rw [← chunks16_flatten (pad data 16)]
  rw [flatten_const_len _ hblocks]

theorem encryptVault_state_length (P : CryptoPrims) (hP : GoodPrims P)
    (key iv data : List Nat) (hiv : iv.length = 16) :
    (cbcEnc (P.encBlock key) iv (chunks16 (pad data 16))).2.length = 16 := by
  have hpadmod : (pad data 16).length % 16 = 0 :=
    pad_length_mod data 16 (by omega) (by omega)
  have hblocks := chunks16_mem_len (pad data 16) hpadmod
  have hctmem := cbcEnc_mem_len (P.encBlock key) (hP.enc_len key)
    (chunks16 (pad data 16)) iv hiv hblocks
  rw [cbcEnc_snd]
  rcases getLastD_mem_or ((cbcEnc (P.encBlock key) iv (chunks16 (pad data 16))).1) iv with h | h
  · rw [h]; exact hiv
  · exact hctmem _ h

theorem encryptVault_etag_length (P : CryptoPrims) (hP : GoodPrims P)
    (key iv data : List Nat) (hiv : iv.length = 16) :
    (encryptVault P key iv data).2.1.length = 64 := by
  have htaglen : (P.sha512 (encryptVault P key iv data).1).length = 64 := hP.sha_len _
  have htagmod : (P.sha512 (encryptVault P key iv data).1).length % 16 = 0 := by
    rw [htaglen]
  have htb := chunks16_mem_len _ htagmod
  have hprev : (cbcEnc (P.encBlock key) iv (chunks16 (pad data 16))).2.length = 16 :=
    encryptVault_state_length P hP key iv data hiv
  have hetmem := cbcEnc_mem_len (P.encBlock key) (hP.enc_len key)
    (chunks16 (P.sha512 (encryptVault P key iv data).1))
    (cbcEnc (P.encBlock key) iv (chunks16 (pad data 16))).2 hprev htb
  have hunf : (encryptVault P key iv data).2.1
      = (cbcEnc (P.encBlock key)
          (cbcEnc (P.encBlock key) iv (chunks16 (pad data 16))).2
          (chunks16 (P.sha512 (encryptVault P key iv data).1))).1.flatten := rfl
  rw [hunf, flatten_const_len _ hetmem, cbcEnc_fst_length]
  have h64 : 16 * (chunks16 (P.sha512 (encryptVault P key iv data).1)).length
      = (P.sha512 (encryptVault P key iv data).1).length := by
    conv_rhs => rw [← chunks16_flatten (P.sha512 (encryptVault P key iv data).1)]
    rw [flatten_const_len _ htb]
  rw [h64, htaglen]

theorem encryptVault_tag (P : CryptoPrims) (key iv data : List Nat) :
    (encryptVault P key iv data).2.2 = P.sha512 (encryptVault P key iv data).1 := rfl

/-- CBC decryption of `ciphertext ++ encrypted tag` recovers
`padded plaintext ++ plain tag`. -/
theorem decrypt_ct_etag (P : CryptoPrims) (hP : GoodPrims P)
    (key iv data : List Nat) (hiv : iv.length = 16) :
    decryptBytesCBC P key iv
        ((encryptVault P key iv data).1 ++ (encryptVault P key iv data).2.1)
      = pad data 16 ++ (encryptVault P key iv data).2.2 := by
  have hpadmod : (pad data 16).length % 16 = 0 :=
    pad_length_mod data 16 (by omega) (by omega)
  have hblocks := chunks16_mem_len (pad data 16) hpadmod
  have hctmem := cbcEnc_mem_len (P.encBlock key) (hP.enc_len key)
    (chunks16 (pad data 16)) iv hiv hblocks
  have hctmod : (encryptVault P key iv data).1.length % 16 = 0 := by
    rw [encryptVault_ct_length P hP key iv data hiv]; exact hpadmod
  have htaglen : (P.sha512 (encryptVault P key iv data).1).length = 64 := hP.sha_len _
  have htagmod : (P.sha512 (encryptVault P key iv data).1).length % 16 = 0 := by
    rw [htaglen]
  have htb := chunks16_mem_len _ htagmod
  have hprev : (cbcEnc (P.encBlock key) iv (chunks16 (pad data 16))).2.length = 16 :=
    encryptVault_state_length P hP key iv data hiv
  have hetmem := cbcEnc_mem_len (P.encBlock key) (hP.enc_len key)
    (chunks16 (P.sha512 (encryptVault P key iv data).1))
    (cbcEnc (P.encBlock key) iv (chunks16 (pad data 16))).2 hprev htb
  unfold decryptBytesCBC
  rw [chunks16_append _ _ hctmod]
  have hct : chunks16 (encryptVault P key iv data).1
      = (cbcEnc (P.encBlock key) iv (chunks16 (pad data 16))).1 :=
    chunks16_flatten_of_blocks _ hctmem
  have het : chunks16 (encryptVault P key iv data).2.1
      = (cbcEnc (P.encBlock key)
          (cbcEnc (P.encBlock key) iv (chunks16 (pad data 16))).2
          (chunks16 (P.sha512 (encryptVault P key iv data).1))).1 :=
    chunks16_flatten_of_blocks _ hetmem
  rw [hct, het, cbcDec_append]
  have hlast : ((cbcEnc (P.encBlock key) iv (chunks16 (pad data 16))).1).getLastD iv
      = (cbcEnc (P.encBlock key) iv (chunks16 (pad data 16))).2 :=
    (cbcEnc_snd (P.encBlock key) (chunks16 (pad data 16)) iv).symm
  rw [hlast]
  rw [cbcDec_cbcEnc (P.encBlock key) (P.decBlock key) (hP.enc_len key) (hP.dec_enc key)
    (chunks16 (pad data 16)) iv hiv hblocks]
  rw [cbcDec_cbcEnc (P.encBlock key) (P.decBlock key) (hP.enc_len key) (hP.dec_enc key)
    (chunks16 (P.sha512 (encryptVault P key iv data).1))
    (cbcEnc (P.encBlock key) iv (chunks16 (pad data 16))).2 hprev htb]
  rw [List.flatten_append, chunks16_flatten, chunks16_flatten]
  rfl

theorem write_file_shape (P : CryptoPrims) (pw : String) (data rng : List Nat) :
    (writeToVaultFile P pw data rng).1
      = VAULT_MAGIC ++ rng.take 8 ++ (rng.drop 8).take 16
        ++ (encryptVault P (P.kdf pw (rng.take 8)) ((rng.drop 8).take 16) data).1
        ++ (encryptVault P (P.kdf pw (rng.take 8)) ((rng.drop 8).take 16) data).2.1
        ++ (encryptVault P (P.kdf pw (rng.take 8)) ((rng.drop 8).take 16) data).2.2 := rfl

theorem write_file_rng (P : CryptoPrims) (pw : String) (data rng : List Nat) :
    (writeToVaultFile P pw data rng).2 = rng.drop 24 := by
  show (rng.drop 8).drop 16 = rng.drop 24
  rw [List.drop_drop]

/-- Field decomposition of a freshly written vault file. -/
theorem writeFile_fields (P : CryptoPrims) (hP : GoodPrims P) (pw : String)
    (data rng : List Nat) (hr : 24 ≤ rng.length) :
    (writeToVaultFile P pw data rng).1.take 4 = VAULT_MAGIC ∧
    fileSalt (writeToVaultFile P pw data rng).1 = rng.take 8 ∧
    fileIV (writeToVaultFile P pw data rng).1 = (rng.drop 8).take 16 ∧
    fileEncRegion (writeToVaultFile P pw data rng).1
      = (encryptVault P (P.kdf pw (rng.take 8)) ((rng.drop 8).take 16) data).1
        ++ (encryptVault P (P.kdf pw (rng.take 8)) ((rng.drop 8).take 16) data).2.1 ∧
    filePlainTag (writeToVaultFile P pw data rng).1
      = (encryptVault P (P.kdf pw (rng.take 8)) ((rng.drop 8).take 16) data).2.2 ∧
    fileCiphertext (writeToVaultFile P pw data rng).1
      = (encryptVault P (P.kdf pw (rng.take 8)) ((rng.drop 8).take 16) data).1 := by
  have hs : (rng.take 8).length = 8 := by
    simp only [List.length_take]
    omega
  have hiv : ((rng.drop 8).take 16).length = 16 := by
    simp only [List.length_take, List.length_drop]
    omega
  have he : (encryptVault P (P.kdf pw (rng.take 8)) ((rng.drop 8).take 16) data).2.1.length = 64 :=
    encryptVault_etag_length P hP _ _ data hiv
  have ht : (encryptVault P (P.kdf pw (rng.take 8)) ((rng.drop 8).take 16) data).2.2.length = 64 := by
    rw [encryptVault_tag]
    exact hP.sha_len _
  rw [write_file_shape]
  exact parse_vault_file _ _ _ _ _ hs hiv he ht

/-- Decrypting what `_encrypt_vault` produced succeeds and returns the
original data together with the plain tag. -/
theorem decryptVault_encryptVault (P : CryptoPrims) (hP : GoodPrims P)
    (key iv data : List Nat) (hiv : iv.length = 16) :
    decryptVault P key iv
        ((encryptVault P key iv data).1 ++ (encryptVault P key iv data).2.1)
      = .ok (data, (encryptVault P key iv data).2.2) := by
  have hctlen := encryptVault_ct_length P hP key iv data hiv
  have hetlen := encryptVault_etag_length P hP key iv data hiv
  have hpadmod : (pad data 16).length % 16 = 0 :=
    pad_length_mod data 16 (by omega) (by omega)
  have hmod : ((encryptVault P key iv data).1 ++ (encryptVault P key iv data).2.1).length % 16 = 0 := by
    simp only [List.length_append, hctlen, hetlen]
    omega
  have htaglen : (encryptVault P key iv data).2.2.length = 64 := by
    rw [encryptVault_tag]
    exact hP.sha_len _
  unfold decryptVault
  rw [if_pos hiv, if_pos hmod]
  rw [decrypt_ct_etag P hP key iv data hiv]
  have harith : (pad data 16 ++ (encryptVault P key iv data).2.2).length - 64
      = (pad data 16).length := by
    simp only [List.length_append, htaglen]
    omega
  simp only [harith, List.take_left, List.drop_left,
    unpad_pad data 16 (by omega) (by omega)]

/-- Reading back a freshly written vault file with the same password
returns exactly the written data. -/
theorem readFrom_write (P : CryptoPrims) (hP : GoodPrims P) (pw : String)
    (data rng : List Nat) (hr : 24 ≤ rng.length) :
    readFromVaultFile P pw (writeToVaultFile P pw data rng).1 = .ok data := by
  obtain ⟨h0, h1, h2, h3, h4, h5⟩ := writeFile_fields P hP pw data rng hr
  have hiv : ((rng.drop 8).take 16).length = 16 := by
    simp only [List.length_take, List.length_drop]
    omega
  unfold readFromVaultFile
  rw [h1, h2, h3, h4]
  rw [decryptVault_encryptVault P hP _ _ data hiv]
  simp

/-- A concrete instantiation of the primitives, used for executable
witnesses and counterexamples: the block cipher XORs every byte with a
key-derived constant (hence is its own inverse), the hash pads or
truncates to 64 bytes, and the KDF extends the salt to 32 bytes. -/
def toyPrims : CryptoPrims where
  encBlock := fun k b => b.map (fun x => Nat.xor x (k.headD 0 % 256))
  decBlock := fun k b => b.map (fun x => Nat.xor x (k.headD 0 % 256))
  sha512 := fun x => (x ++ List.replicate 64 0).take 64
  kdf := fun _ s => s ++ List.replicate 24 7

theorem toyPrims_good : GoodPrims toyPrims := by
  refine ⟨?_, ?_, ?_, ?_⟩
  · intro k b hb
    simpa [toyPrims] using hb
  · intro k b hb
    simpa [toyPrims] using hb
  · intro k b _
    show (b.map fun x => Nat.xor x (k.headD 0 % 256)).map
        (fun x => Nat.xor x (k.headD 0 % 256)) = b
    rw [List.map_map]
    have h1 : ((fun x => Nat.xor x (k.headD 0 % 256))
        ∘ fun x => Nat.xor x (k.headD 0 % 256)) = id := by
      funext x
      simp [Function.comp, natXor_cancel_right]
    rw [h1, List.map_id]
  · intro x
    simp only [toyPrims, List.length_take, List.length_append, List.length_replicate]
    omega

/-- Projection of a read result used by concrete demonstrations: the
returned plaintext, or `none` when the read raised an error. -/
def readOutcome (r : Except VaultErr (List Nat × VaultState)) : Option (List Nat) :=
  match r with
  | .ok dv => some dv.1
  | .error _ => none

/-- Demonstration random stream: enough bytes for two writes. -/
def demoRng : List Nat := List.replicate 48 5

/-- Demonstration plaintext: one full AES block, so the padded plaintext
occupies two blocks and the ciphertext has a non-final block. -/
def demoData : List Nat := List.replicate 16 65

/-- A valid vault file for password "x" holding `demoData`. -/
def demoFile : List Nat := (writeToVaultFile toyPrims "x" demoData demoRng).1

/-- `demoFile` with byte 28 — the first ciphertext byte, inside the
non-final ciphertext block — XOR-flipped in its lowest bit. -/
def tamperedDemoFile : List Nat := demoFile.set 28 (Nat.xor (demoFile.getD 28 0) 1)

/-- A valid vault file for password "x" holding the empty byte string. -/
def demoEmptyFile : List Nat := (writeToVaultFile toyPrims "x" [] demoRng).1

/-- A degenerate 28-byte file: correct magic, salt and IV fields but no
ciphertext, no encrypted tag, no plain tag. -/
def file28 : List Nat := VAULT_MAGIC ++ List.replicate 24 0

/-! ## The entry table layer (`PassVault` in `src/pass_vault.py`) -/

/-- A JSON value as used by the entry table: strings, numeric timestamps
(`time.time()`), or `null`. -/
inductive Value where
  | str (s : String)
  | num (n : Nat)
  | null
  deriving DecidableEq

/-- Python truthiness of a `Value`, for `if self._data[entry_id][self.LAST_REVEALED]:`. -/
def Value.truthy : Value → Bool
  | .null => false
  | .num n => n != 0
  | .str s => s != ""

/-- An entry record: a Python dict from field name to value, modelled as
an insertion-ordered association list. -/
abbrev Entry : Type := List (String × Value)

/-- The vault's entry table: a Python dict from entry id to record. -/
abbrev Table : Type := List (String × Entry)

/-- Python `d[k]` as an option. -/
def dictGet {α : Type} (d : List (String × α)) (k : String) : Option α :=
  match d.find? (fun p => p.1 == k) with
  | none => none
  | some p => some p.2

/-- Python `k in d`. -/
def dictHas {α : Type} (d : List (String × α)) (k : String) : Bool :=
  d.any (fun p => p.1 == k)

/-- Python `d[k] = v`: overwrite in place when the key exists (keeping
its insertion position), otherwise append at the end. -/
def dictSet {α : Type} (d : List (String × α)) (k : String) (v : α) :
    List (String × α) :=
  if dictHas d k then d.map (fun p => if p.1 == k then (k, v) else p)
  else d ++ [(k, v)]

def LAST_MODIFIED : String := "last_modified"
def LAST_REVEALED : String := "last_revealed"
def BUILTINS : List String := [LAST_MODIFIED, LAST_REVEALED]
def PASSWORD : String := "password"
def HIDDEN_PASSWORD : Value := .str "********"

/-- `PassVault._entry_exists`. -/
def entryExists (tbl : Table) (id : String) : Bool := dictHas tbl id

/-- `PassVault._valid_properties`: reject builtin key collisions, then
require a "password" key. -/
def valid_properties (props : Entry) : Except VaultErr Unit :=
  if props.any (fun p => BUILTINS.contains p.1) then .error .keyCollisionWithBuiltin
  else if props.all (fun p => p.1 != PASSWORD) then .error .noPasswordForEntry
  else .ok ()

/-- `PassVault.add_entry`: existence check (when requested), property
validation, then store the properties and add the builtin fields.  The
second component is the table after the call; on an error the table is
the unchanged input, as the source raises before mutating. -/
def add_entry (tbl : Table) (id : String) (props : Entry) (now : Nat)
    (check_existence : Bool) : Except VaultErr Unit × Table :=
  if check_existence && entryExists tbl id then (.error .entryAlreadyExists, tbl)
  else
    match valid_properties props with
    | .error e => (.error e, tbl)
    | .ok _ =>
      let e1 := dictSet props LAST_MODIFIED (.num now)
      let e2 := dictSet e1 LAST_REVEALED .null
      (.ok (), dictSet tbl id e2)

/-- `PassVault.del_entry`: after the existence check and the optional
confirmation prompt, the source executes `self._data[entry_id].pop()` —
`dict.pop` with no key argument — which raises `TypeError` and never
removes the entry.  The table is returned unchanged in every branch. -/
def del_entry (tbl : Table) (id : String) (sure promptAnswer : Bool) :
    Except VaultErr Unit × Table :=
  if !entryExists tbl id then (.error .entryDoesNotExist, tbl)
  else if !sure && !promptAnswer then (.ok (), tbl)
  else (.error .typeError, tbl)

/-- `PassVault.edit_entry`: existence check, optional confirmation, then
delegate to `add_entry` with the existence check disabled. -/
def edit_entry (tbl : Table) (id : String) (props : Entry) (now : Nat)
    (sure promptAnswer : Bool) : Except VaultErr Unit × Table :=
  if !entryExists tbl id then (.error .entryDoesNotExist, tbl)
  else if !sure && !promptAnswer then (.ok (), tbl)
  else add_entry tbl id props now false

/-- `PassVault.get_entry`.  `fmt` is the external
`vault.seconds_to_human_readable` collaborator (display formatting only).
When not hiding, the stored record's `last_revealed` is set to `now`
before the copy is completed.  `keyError` models the uncaught `KeyError`
on a record missing a builtin field. -/
def get_entry (fmt : Value → Value) (tbl : Table) (id : String) (now : Nat)
    (hide_password : Bool) : Except VaultErr Entry × Table :=
  match dictGet tbl id with
  | none => (.error .entryDoesNotExist, tbl)
  | some e0 =>
    let stored := if hide_password then e0 else dictSet e0 LAST_REVEALED (.num now)
    let tbl1 := if hide_password then tbl else dictSet tbl id stored
    let copy0 := if hide_password then dictSet e0 PASSWORD HIDDEN_PASSWORD
                 else dictSet e0 LAST_REVEALED (.num now)
    match dictGet stored LAST_MODIFIED with
    | none => (.error .keyError, tbl1)
    | some lm =>
      let copy1 := dictSet copy0 LAST_MODIFIED (fmt lm)
      match dictGet stored LAST_REVEALED with
      | none => (.error .keyError, tbl1)
      | some lr =>
        (.ok (if lr.truthy then dictSet copy1 LAST_REVEALED (fmt lr)
              else dictSet copy1 LAST_REVEALED Value.null), tbl1)

/-- `PassVault.get_password`: update the stored `last_revealed`, then
return the raw password. -/
def get_password (tbl : Table) (id : String) (now : Nat) :
    Except VaultErr Value × Table :=
  match dictGet tbl id with
  | none => (.error .entryDoesNotExist, tbl)
  | some e0 =>
    let e1 := dictSet e0 LAST_REVEALED (.num now)
    let tbl1 := dictSet tbl id e1
    match dictGet e1 PASSWORD with
    | none => (.error .keyError, tbl1)
    | some p => (.ok p, tbl1)

/-- `PassVault.list_entries`. -/
def list_entries (tbl : Table) : List String := tbl.map (fun p => p.1)

deriving instance DecidableEq for Except

/-! ### Dictionary lemmas -/

theorem find?_map_set {α : Type} (k : String) (v : α) :
    ∀ d : List (String × α), dictHas d k = true →
    (d.map (fun p => if p.1 == k then (k, v) else p)).find? (fun p => p.1 == k)
      = some (k, v) := by
  intro d
  induction d with
  | nil => intro h; simp [dictHas] at h
  | cons p d ih =>
    intro h
    rw [List.map_cons]
    by_cases hp : (p.1 == k) = true
    · rw [if_pos hp]
      exact List.find?_cons_of_pos _ (by simp)
    · rw [if_neg hp]
      rw [List.find?_cons_of_neg _ (by simpa using hp)]
      apply ih
      have hp2 : (p.1 == k) = false := by simpa using hp
      simp only [dictHas, List.any_cons, hp2, Bool.false_or] at h
      exact h

theorem find?_map_set_other {α : Type} (k k' : String) (v : α) (hkk : k' ≠ k) :
    ∀ d : List (String × α),
    (d.map (fun p => if p.1 == k then (k, v) else p)).find? (fun p => p.1 == k')
      = d.find? (fun p => p.1 == k') := by
  intro d
  have hkF : (k == k') = false := beq_eq_false_iff_ne.mpr (fun hc => hkk hc.symm)
  induction d with
  | nil => rfl
  | cons p d ih =>
    rw [List.map_cons]
    by_cases hp : (p.1 == k) = true
    · have hpk : p.1 = k := by simpa using hp
      rw [if_pos hp]
      rw [List.find?_cons_of_neg _ (by simp [hkF])]
      rw [List.find?_cons_of_neg _ (by simp [hpk, hkF])]
      exact ih
    · rw [if_neg hp]
      by_cases hq : (p.1 == k') = true
      · rw [@List.find?_cons_of_pos _ (fun q => q.1 == k') p _ hq,
          @List.find?_cons_of_pos _ (fun q => q.1 == k') p _ hq]
      · rw [@List.find?_cons_of_neg _ (fun q => q.1 == k') p _ hq,
          @List.find?_cons_of_neg _ (fun q => q.1 == k') p _ hq]
        exact ih

theorem find?_append_single_self {α : Type} (k : String) (v : α) :
    ∀ d : List (String × α), dictHas d k = false →
    (d ++ [(k, v)]).find? (fun p => p.1 == k) = some (k, v) := by
  intro d
  induction d with
  | nil =>
    intro _
    exact List.find?_cons_of_pos _ (by simp)
  | cons p d ih =>
    intro h
    simp only [dictHas, List.any_cons, Bool.or_eq_false_iff] at h
    rw [List.cons_append, List.find?_cons_of_neg _ (by simp [h.1])]
    exact ih h.2

theorem find?_append_single_other {α : Type} (k k' : String) (v : α) (hkk : k' ≠ k) :
    ∀ d : List (String × α),
    (d ++ [(k, v)]).find? (fun p => p.1 == k') = d.find? (fun p => p.1 == k') := by
  intro d
  have hkF : (k == k') = false := beq_eq_false_iff_ne.mpr (fun hc => hkk hc.symm)
  induction d with
  | nil =>
    rw [List.nil_append, List.find?_cons_of_neg _ (by simp [hkF])]
  | cons p d ih =>
    by_cases hq : (p.1 == k') = true
    · rw [List.cons_append, @List.find?_cons_of_pos _ (fun q => q.1 == k') p _ hq,
        @List.find?_cons_of_pos _ (fun q => q.1 == k') p _ hq]
    · rw [List.cons_append, @List.find?_cons_of_neg _ (fun q => q.1 == k') p _ hq,
        @List.find?_cons_of_neg _ (fun q => q.1 == k') p _ hq]
      exact ih

/-- Setting a key then reading it returns the new value. -/
theorem dictGet_dictSet_self {α : Type} (d : List (String × α)) (k : String) (v : α) :
    dictGet (dictSet d k v) k = some v := by
  unfold dictSet
  cases hh : dictHas d k with
  | true =>
    simp only [if_true]
    unfold dictGet
    rw [find?_map_set k v d hh]
  | false =>
    simp only [Bool.false_eq_true, if_false]
    unfold dictGet
    rw [find?_append_single_self k v d hh]

/-- Setting a key leaves other keys unchanged. -/
theorem dictGet_dictSet_other {α : Type} (d : List (String × α)) (k k' : String)
    (v : α) (hkk : k' ≠ k) :
    dictGet (dictSet d k v) k' = dictGet d k' := by
  unfold dictSet
  cases hh : dictHas d k with
  | true =>
    simp only [if_true]
    unfold dictGet
    rw [find?_map_set_other k k' v hkk d]
  | false =>
    simp only [Bool.false_eq_true, if_false]
    unfold dictGet
    rw [find?_append_single_other k k' v hkk d]

/-- Setting an absent key appends it. -/
theorem dictSet_of_not_has {α : Type} (d : List (String × α)) (k : String) (v : α)
    (h : dictHas d k = false) : dictSet d k v = d ++ [(k, v)] := by
  unfold dictSet
  simp [h]

/-- A table with no builtin keys has neither `last_modified` nor
`last_revealed`. -/
theorem not_has_builtins (props : Entry)
    (hb : props.any (fun p => BUILTINS.contains p.1) = false) :
    dictHas props LAST_MODIFIED = false ∧ dictHas props LAST_REVEALED = false := by
  simp only [List.any_eq_false] at hb
  unfold dictHas
  constructor <;>
  · simp only [List.any_eq_false]
    intro p hp hc
    apply hb p hp
    have : p.1 = LAST_MODIFIED ∨ p.1 = LAST_REVEALED := by
      rcases eq_or_ne p.1 LAST_MODIFIED with h | h
      · exact Or.inl h
      · rcases eq_or_ne p.1 LAST_REVEALED with h2 | h2
        · exact Or.inr h2
        · first
          | (exfalso
             have : p.1 = LAST_MODIFIED := by simpa using hc
             exact h this)
          | (exfalso
             have : p.1 = LAST_REVEALED := by simpa using hc
             exact h2 this)
    rcases this with h | h <;> simp [BUILTINS, h]

/-! ### Helper lemmas for the claim theorems -/

theorem decryptBytesCBC_length (P : CryptoPrims) (hP : GoodPrims P)
    (key iv enc : List Nat) (hiv : iv.length = 16) (hmod : enc.length % 16 = 0) :
    (decryptBytesCBC P key iv enc).length = enc.length := by
  unfold decryptBytesCBC
  have hmem := chunks16_mem_len enc hmod
  have hdec := cbcDec_mem_len (P.decBlock key) (hP.dec_len key) (chunks16 enc) iv hiv hmem
  rw [flatten_const_len _ hdec, cbcDec_length]
  conv_rhs => rw [← chunks16_flatten enc]
  rw [flatten_const_len _ hmem]

set_option maxRecDepth 4000 in
/-- Evaluation of `_read_from_vault_file` on any well-formed-looking file:
the unpad succeeds and the result is decided exactly by the tag
comparison. -/
theorem readFromVaultFile_eval (P : CryptoPrims) (hP : GoodPrims P) (pw : String)
    (c : List Nat) (hL : 172 ≤ c.length) (hmod : (c.length - 92) % 16 = 0) :
    ∃ u, unpad (decryptedBody P pw c) = some u ∧
    readFromVaultFile P pw c =
      (if decryptedTag P pw c = filePlainTag c then .ok u
       else .error .vaultMasterPasswordIncorrect) := by
  have hiv : (fileIV c).length = 16 := by
    unfold fileIV
    simp only [List.length_take, List.length_drop]
    omega
  have hregionlen : (fileEncRegion c).length = c.length - 92 := by
    unfold fileEncRegion
    simp only [List.length_take, List.length_drop]
    omega
  have hregmod : (fileEncRegion c).length % 16 = 0 := by
    rw [hregionlen]
    exact hmod
  have hdata : (decryptBytesCBC P (P.kdf pw (fileSalt c)) (fileIV c) (fileEncRegion c)).length
      = c.length - 92 := by
    rw [decryptBytesCBC_length P hP _ _ _ hiv hregmod, hregionlen]
  have hblen : (decryptedBody P pw c).length = c.length - 156 := by
    unfold decryptedBody
    simp only [List.length_take, hdata]
    omega
  have hbody : decryptedBody P pw c ≠ [] := by
    intro h0
    rw [h0] at hblen
    simp only [List.length_nil] at hblen
    omega
  obtain ⟨u, hu⟩ : ∃ u, unpad (decryptedBody P pw c) = some u := by
    unfold unpad
    cases hgl : (decryptedBody P pw c).getLast? with
    | none => exact absurd (List.getLast?_eq_none_iff.mp hgl) hbody
    | some p => exact ⟨_, rfl⟩
  refine ⟨u, hu, ?_⟩
  unfold readFromVaultFile decryptVault
  rw [if_pos hiv, if_pos hregmod]
  have hu2 : unpad ((decryptBytesCBC P (P.kdf pw (fileSalt c)) (fileIV c)
      (fileEncRegion c)).take
        ((decryptBytesCBC P (P.kdf pw (fileSalt c)) (fileIV c)
          (fileEncRegion c)).length - 64)) = some u := hu
  simp only [hu2]
  rfl

/-- With the same key and plaintext, different 16-byte IVs give different
CBC ciphertexts (the first ciphertext blocks already differ). -/
theorem encryptVault_ct_ne (P : CryptoPrims) (hP : GoodPrims P)
    (key data iv₁ iv₂ : List Nat) (h1 : iv₁.length = 16) (h2 : iv₂.length = 16)
    (hne : iv₁ ≠ iv₂) :
    (encryptVault P key iv₁ data).1 ≠ (encryptVault P key iv₂ data).1 := by
  intro hc
  have hpadmod : (pad data 16).length % 16 = 0 :=
    pad_length_mod data 16 (by omega) (by omega)
  have hpadpos : 1 ≤ (pad data 16).length := by
    rw [pad_length data 16 (by omega) (by omega)]
    have := padSize_pos data.length 16 (by omega)
    omega
  have hmem := chunks16_mem_len (pad data 16) hpadmod
  cases hpad : pad data 16 with
  | nil =>
    rw [hpad] at hpadpos
    simp at hpadpos
  | cons a l =>
    rw [hpad] at hmem
    have hb0 : (a :: l.take 15) ∈ chunks16 (a :: l) := by
      rw [chunks16_cons]
      exact List.mem_cons_self _ _
    have hb0len : (a :: l.take 15).length = 16 := hmem _ hb0
    have hx1 : (xorBytes iv₁ (a :: l.take 15)).length = 16 := by
      rw [length_xorBytes, h1, hb0len]
      simp
    have hx2 : (xorBytes iv₂ (a :: l.take 15)).length = 16 := by
      rw [length_xorBytes, h2, hb0len]
      simp
    have hc1 : (encryptVault P key iv₁ data).1
        = P.encBlock key (xorBytes iv₁ (a :: l.take 15))
          ++ (cbcEnc (P.encBlock key) (P.encBlock key (xorBytes iv₁ (a :: l.take 15)))
              (chunks16 (l.drop 15))).1.flatten := by
      show (cbcEnc (P.encBlock key) iv₁ (chunks16 (pad data 16))).1.flatten = _
      rw [hpad, chunks16_cons]
      simp [cbcEnc]
    have hc2 : (encryptVault P key iv₂ data).1
        = P.encBlock key (xorBytes iv₂ (a :: l.take 15))
          ++ (cbcEnc (P.encBlock key) (P.encBlock key (xorBytes iv₂ (a :: l.take 15)))
              (chunks16 (l.drop 15))).1.flatten := by
      show (cbcEnc (P.encBlock key) iv₂ (chunks16 (pad data 16))).1.flatten = _
      rw [hpad, chunks16_cons]
      simp [cbcEnc]
    rw [hc1, hc2] at hc
    have htake := congrArg (fun t => List.take 16 t) hc
    simp only at htake
    rw [List.take_left' (hP.enc_len key _ hx1), List.take_left' (hP.enc_len key _ hx2)] at htake
    have hdec := congrArg (P.decBlock key) htake
    rw [hP.dec_enc key _ hx1, hP.dec_enc key _ hx2] at hdec
    exact hne (xorBytes_right_cancel iv₁ iv₂ (a :: l.take 15)
      (by omega) (by omega) hdec)

/-! ## Claim theorems -/

set_option maxRecDepth 2000000 in
/-- C6 counterexample: the claim fails as stated.  For block size 128 the
padding size is 128, `chr(128).encode()` is the two UTF-8 bytes
`c2 80`, so `pad` appends 256 bytes (not 128 bytes of value 128) and the
round trip fails; moreover a trailing byte of value 0 makes `unpad`
return the empty string rather than stripping 0 bytes. -/
theorem claim6_counterexample :
    unpad (pad ([] : List Nat) 128) ≠ some ([] : List Nat) ∧
    (pad ([] : List Nat) 128).length = 256 ∧
    unpad [1, 0] = some ([] : List Nat) ∧
    unpad [1, 0] ≠ some ([1, 0] : List Nat) := by decide

/-- C6 (amended): for every byte string `x` and block size `bs` with
`1 ≤ bs ≤ 127`, `pad` appends `p` bytes each of value `p` where
`p = bs - (len x mod bs)` and `p = bs` when `len x` is a multiple of
`bs` (so the padding is 1..bs bytes); `unpad` strips as many trailing
bytes as the value `p` of the (nonzero) last byte; hence
`unpad (pad x bs) = x`. -/
theorem claim6_pad_unpad_amended (x : List Nat) (bs : Nat)
    (h1 : 1 ≤ bs) (h2 : bs ≤ 127) :
    padSize x.length bs = (if x.length % bs = 0 then bs else bs - x.length % bs) ∧
    1 ≤ padSize x.length bs ∧ padSize x.length bs ≤ bs ∧
    pad x bs = x ++ List.replicate (padSize x.length bs) (padSize x.length bs) ∧
    (∀ y : List Nat, ∀ p : Nat, y.getLast? = some p → p ≠ 0 →
      unpad y = some (y.take (y.length - p))) ∧
    unpad (pad x bs) = some x :=
  ⟨padSize_eq x.length bs (by omega), padSize_pos x.length bs (by omega),
    padSize_le x.length bs (by omega), pad_eq_replicate x bs h1 h2,
    fun y p hl hp => unpad_strips y p hl hp, unpad_pad x bs h1 h2⟩

/-- C6 witness: the amended claim at `x = [1, 2, 3]`, `bs = 16`. -/
theorem claim6_witness :
    padSize 3 16 = (if 3 % 16 = 0 then 16 else 16 - 3 % 16) ∧
    1 ≤ padSize 3 16 ∧ padSize 3 16 ≤ 16 ∧
    pad [1, 2, 3] 16 = [1, 2, 3] ++ List.replicate (padSize 3 16) (padSize 3 16) ∧
    (∀ y : List Nat, ∀ p : Nat, y.getLast? = some p → p ≠ 0 →
      unpad y = some (y.take (y.length - p))) ∧
    unpad (pad [1, 2, 3] 16) = some [1, 2, 3] :=
  claim6_pad_unpad_amended [1, 2, 3] 16 (by decide) (by decide)

set_option maxRecDepth 2000000 in
/-- C2: code bug.  `demoFile` is a valid vault file for password "x"
holding `demoData` (two ciphertext blocks).  Flipping one byte of the
non-final ciphertext block (file byte 28, the first ciphertext byte)
leaves the decrypted tag equal to the stored plain tag, so `read()` with
the correct password passes the authentication check and silently
returns altered plaintext, contradicting the tamper-detection claim: the
check only authenticates the final ciphertext block, because read never
recomputes `Hash(ciphertext)`. -/
theorem claim2_tamper_undetected :
    tamperedDemoFile = demoFile.set 28 (Nat.xor (demoFile.getD 28 0) 1) ∧
    tamperedDemoFile ≠ demoFile ∧
    tamperedDemoFile.length = demoFile.length ∧
    readOutcome (vaultRead toyPrims "x" ⟨some demoFile, demoRng⟩) = some demoData ∧
    readOutcome (vaultRead toyPrims "x" ⟨some tamperedDemoFile, demoRng⟩) ≠ none ∧
    readOutcome (vaultRead toyPrims "x" ⟨some tamperedDemoFile, demoRng⟩)
      ≠ some demoData := by decide

set_option maxRecDepth 2000000 in
/-- C3: code bug.  `del_entry` with the id present and deletion confirmed
executes `self._data[entry_id].pop()` — `dict.pop` with no key argument —
which raises `TypeError`; the entry is never removed and remains in the
table.  The absent-id branch does fail `NotFound` with the table
unchanged, as the claim states. -/
theorem claim3_del_entry_typeerror :
    del_entry [("email", [(PASSWORD, Value.str "abc123")])] "email" true true
      = (.error .typeError, [("email", [(PASSWORD, Value.str "abc123")])]) ∧
    entryExists
      (del_entry [("email", [(PASSWORD, Value.str "abc123")])] "email" true true).2
      "email" = true ∧
    list_entries
      (del_entry [("email", [(PASSWORD, Value.str "abc123")])] "email" true true).2
      = ["email"] ∧
    del_entry ([] : Table) "email" true true
      = (.error .entryDoesNotExist, ([] : Table)) := by decide

/-- C8: `add_entry` fails `AlreadyExists` when the id is present, then
`BuiltinKeyCollision` when a reserved field name occurs, then
`MissingPassword` when no "password" key occurs; otherwise it stores the
given properties followed by `last_modified = now` and
`last_revealed = null`, leaving the rest of the table intact. -/
theorem claim8_add_entry_semantics (tbl : Table) (id : String) (props : Entry)
    (now : Nat) :
    (entryExists tbl id = true →
      add_entry tbl id props now true = (.error .entryAlreadyExists, tbl)) ∧
    (entryExists tbl id = false →
      props.any (fun p => BUILTINS.contains p.1) = true →
      add_entry tbl id props now true = (.error .keyCollisionWithBuiltin, tbl)) ∧
    (entryExists tbl id = false →
      props.any (fun p => BUILTINS.contains p.1) = false →
      props.all (fun p => p.1 != PASSWORD) = true →
      add_entry tbl id props now true = (.error .noPasswordForEntry, tbl)) ∧
    (entryExists tbl id = false →
      props.any (fun p => BUILTINS.contains p.1) = false →
      props.all (fun p => p.1 != PASSWORD) = false →
      add_entry tbl id props now true
        = (.ok (), tbl ++ [(id, props ++ [(LAST_MODIFIED, Value.num now),
            (LAST_REVEALED, Value.null)])])) := by
  refine ⟨?_, ?_, ?_, ?_⟩
  · intro hex
    simp [add_entry, hex]
  · intro hex hb
    simp only [add_entry, hex, Bool.and_false, Bool.false_eq_true, if_false,
      valid_properties]
    rw [if_pos hb]
  · intro hex hb hp
    simp only [add_entry, hex, Bool.and_false, Bool.false_eq_true, if_false,
      valid_properties]
    rw [if_neg (by rw [hb]; simp), if_pos hp]
  · intro hex hb hp
    have hnb := not_has_builtins props hb
    have h2 : dictHas (props ++ [(LAST_MODIFIED, Value.num now)]) LAST_REVEALED
        = false := by
      unfold dictHas
      rw [List.any_append]
      have h3 := hnb.2
      unfold dictHas at h3
      rw [h3]
      simp [show ((LAST_MODIFIED == LAST_REVEALED) : Bool) = false from by decide]
    simp only [add_entry, hex, Bool.and_false, Bool.false_eq_true, if_false,
      valid_properties]
    rw [if_neg (by rw [hb]; simp), if_neg (by rw [hp]; simp)]
    rw [dictSet_of_not_has props LAST_MODIFIED _ hnb.1,
      dictSet_of_not_has _ LAST_REVEALED _ h2,
      dictSet_of_not_has tbl id _ hex]
    simp

/-- C8 witness: adding a fresh entry with a password stores the builtin
fields after the user properties. -/
theorem claim8_witness :
    add_entry ([] : Table) "a" [(PASSWORD, Value.str "x")] 7 true
      = (.ok (), [("a", [(PASSWORD, Value.str "x"), (LAST_MODIFIED, Value.num 7),
          (LAST_REVEALED, Value.null)])]) :=
  (claim8_add_entry_semantics [] "a" [(PASSWORD, Value.str "x")] 7).2.2.2
    (by decide) (by decide) (by decide)

/-- C10: with the id present and the edit confirmed, `edit_entry`
delegates to `add_entry` with the existence check disabled, so it applies
exactly the same property validation: a reserved field name fails
`BuiltinKeyCollision` and a missing "password" key fails
`MissingPassword`, and in both cases the returned table is the unchanged
input (the source raises before mutating anything). -/
theorem claim10_edit_validation (tbl : Table) (id : String) (props : Entry)
    (now : Nat) (promptAnswer : Bool) (hex : entryExists tbl id = true) :
    edit_entry tbl id props now true promptAnswer = add_entry tbl id props now false ∧
    (props.any (fun p => BUILTINS.contains p.1) = true →
      edit_entry tbl id props now true promptAnswer
        = (.error .keyCollisionWithBuiltin, tbl)) ∧
    (props.any (fun p => BUILTINS.contains p.1) = false →
      props.all (fun p => p.1 != PASSWORD) = true →
      edit_entry tbl id props now true promptAnswer
        = (.error .noPasswordForEntry, tbl)) := by
  have h1 : edit_entry tbl id props now true promptAnswer
      = add_entry tbl id props now false := by
    simp [edit_entry, hex]
  refine ⟨h1, ?_, ?_⟩
  · intro hb
    rw [h1]
    simp only [add_entry, Bool.false_and, Bool.false_eq_true, if_false,
      valid_properties]
    rw [if_pos hb]
  · intro hb hp
    rw [h1]
    simp only [add_entry, Bool.false_and, Bool.false_eq_true, if_false,
      valid_properties]
    rw [if_neg (by rw [hb]; simp), if_pos hp]

/-- C10 witness: editing the existing entry "a" with properties lacking a
password fails `MissingPassword` and leaves the table unchanged. -/
theorem claim10_witness :
    edit_entry [("a", [(PASSWORD, Value.str "x")])] "a"
        [("note", Value.str "n")] 5 true true
      = (.error .noPasswordForEntry, [("a", [(PASSWORD, Value.str "x")])]) :=
  (claim10_edit_validation [("a", [(PASSWORD, Value.str "x")])] "a"
    [("note", Value.str "n")] 5 true (by decide)).2.2 (by decide) (by decide)

/-- C1: writing any byte string to an existing valid vault file and then
reading it back with the same master password returns exactly that byte
string (for every data length, covering all pad/unpad boundaries). -/
theorem claim1_write_read_roundtrip (P : CryptoPrims) (hP : GoodPrims P)
    (pw : String) (data : List Nat) (s : VaultState) (c : List Nat)
    (hf : s.file = some c) (hm : c.take 4 = VAULT_MAGIC) (hr : 24 ≤ s.rng.length) :
    ∃ s₁ s₂, vaultWrite P pw data s = .ok s₁ ∧
      vaultRead P pw s₁ = .ok (data, s₂) := by
  refine ⟨⟨some (writeToVaultFile P pw data s.rng).1, (writeToVaultFile P pw data s.rng).2⟩,
    ⟨some (writeToVaultFile P pw data (writeToVaultFile P pw data s.rng).2).1,
     (writeToVaultFile P pw data (writeToVaultFile P pw data s.rng).2).2⟩, ?_, ?_⟩
  · simp only [vaultWrite, hf]
    rw [if_pos hm]
  · simp only [vaultRead]
    rw [if_pos (writeFile_fields P hP pw data s.rng hr).1,
      readFrom_write P hP pw data s.rng hr]

set_option maxRecDepth 2000000 in
/-- C1 witness: round trip on a concrete vault with 16-byte data. -/
theorem claim1_witness :
    ∃ s₁ s₂, vaultWrite toyPrims "x" demoData ⟨some demoEmptyFile, demoRng⟩ = .ok s₁ ∧
      vaultRead toyPrims "x" s₁ = .ok (demoData, s₂) :=
  claim1_write_read_roundtrip toyPrims toyPrims_good "x" demoData
    ⟨some demoEmptyFile, demoRng⟩ demoEmptyFile rfl (by decide) (by decide)

/-- C5: the file produced by a write is exactly
`MAGIC(4) | SALT(8) | IV(16) | CIPHERTEXT(N) | ENCRYPTED_TAG(64) | PLAIN_TAG(64)`
where the ciphertext is the CBC encryption of the padded plaintext
(`N` = padded length, a multiple of 16), the encrypted tag continues the
same CBC chain on the plain tag, and the plain tag is the SHA-512 hash of
the ciphertext (not of the plaintext). -/
theorem claim5_file_layout (P : CryptoPrims) (hP : GoodPrims P) (pw : String)
    (data rng : List Nat) (hr : 24 ≤ rng.length) :
    ∃ salt iv ct etag,
      (writeToVaultFile P pw data rng).1
        = VAULT_MAGIC ++ salt ++ iv ++ ct ++ etag ++ P.sha512 ct ∧
      salt = rng.take 8 ∧ salt.length = 8 ∧
      iv = (rng.drop 8).take 16 ∧ iv.length = 16 ∧
      ct = (cbcEnc (P.encBlock (P.kdf pw salt)) iv (chunks16 (pad data 16))).1.flatten ∧
      ct.length = (pad data 16).length ∧ ct.length % 16 = 0 ∧
      etag = (cbcEnc (P.encBlock (P.kdf pw salt))
          (cbcEnc (P.encBlock (P.kdf pw salt)) iv (chunks16 (pad data 16))).2
          (chunks16 (P.sha512 ct))).1.flatten ∧
      etag.length = 64 ∧ (P.sha512 ct).length = 64 := by
  have hs : (rng.take 8).length = 8 := by
    simp only [List.length_take]
    omega
  have hiv : ((rng.drop 8).take 16).length = 16 := by
    simp only [List.length_take, List.length_drop]
    omega
  refine ⟨rng.take 8, (rng.drop 8).take 16,
    (encryptVault P (P.kdf pw (rng.take 8)) ((rng.drop 8).take 16) data).1,
    (encryptVault P (P.kdf pw (rng.take 8)) ((rng.drop 8).take 16) data).2.1,
    rfl, rfl, hs, rfl, hiv, rfl,
    encryptVault_ct_length P hP _ _ data hiv, ?_, rfl,
    encryptVault_etag_length P hP _ _ data hiv, hP.sha_len _⟩
  rw [encryptVault_ct_length P hP _ _ data hiv]
  exact pad_length_mod data 16 (by omega) (by omega)

/-- C5 witness: the layout on a concrete vault file. -/
theorem claim5_witness :
    ∃ salt iv ct etag,
      (writeToVaultFile toyPrims "x" demoData demoRng).1
        = VAULT_MAGIC ++ salt ++ iv ++ ct ++ etag ++ toyPrims.sha512 ct ∧
      salt = demoRng.take 8 ∧ salt.length = 8 ∧
      iv = (demoRng.drop 8).take 16 ∧ iv.length = 16 ∧
      ct = (cbcEnc (toyPrims.encBlock (toyPrims.kdf "x" salt)) iv
          (chunks16 (pad demoData 16))).1.flatten ∧
      ct.length = (pad demoData 16).length ∧ ct.length % 16 = 0 ∧
      etag = (cbcEnc (toyPrims.encBlock (toyPrims.kdf "x" salt))
          (cbcEnc (toyPrims.encBlock (toyPrims.kdf "x" salt)) iv
            (chunks16 (pad demoData 16))).2
          (chunks16 (toyPrims.sha512 ct))).1.flatten ∧
      etag.length = 64 ∧ (toyPrims.sha512 ct).length = 64 :=
  claim5_file_layout toyPrims toyPrims_good "x" demoData demoRng (by decide)

set_option maxRecDepth 2000000 in
/-- C4 counterexample: the claim fails as stated.  `file28` exists, has
the correct magic, and its stored plain tag (empty) equals the last 64
decrypted bytes (also empty), yet `read()` neither returns the unpadded
plaintext nor fails `IncorrectMasterPassword`: it raises the uncaught
`IndexError` of `unpad(b'')`, because the decrypted region is empty. -/
theorem claim4_counterexample :
    file28.take 4 = VAULT_MAGIC ∧
    decryptedTag toyPrims "x" file28 = filePlainTag file28 ∧
    vaultRead toyPrims "x" ⟨some file28, demoRng⟩ = .error .indexError := by decide

/-- C4 (amended): `read()` fails `NotFound` on a missing file and
`InvalidFormat` when the first 4 bytes mismatch the magic; otherwise,
provided the file is at least 172 bytes long (a 28-byte header, at least
one 16-byte ciphertext block, a 64-byte encrypted tag, a 64-byte plain
tag) and its ciphertext region (total length − 92) is a multiple of 16,
it fails `IncorrectMasterPassword` exactly when the decrypted tag (the
last 64 decrypted bytes) differs from the stored plain tag, and returns
the unpadded plaintext exactly when the tags are equal. -/
theorem claim4_read_semantics_amended (P : CryptoPrims) (hP : GoodPrims P)
    (pw : String) (s : VaultState) :
    (s.file = none → vaultRead P pw s = .error .vaultFileDoesNotExist) ∧
    (∀ c, s.file = some c → ¬(c.take 4 = VAULT_MAGIC) →
      vaultRead P pw s = .error .invalidVaultFormat) ∧
    (∀ c, s.file = some c → c.take 4 = VAULT_MAGIC → 172 ≤ c.length →
      (c.length - 92) % 16 = 0 →
      (decryptedTag P pw c ≠ filePlainTag c →
        vaultRead P pw s = .error .vaultMasterPasswordIncorrect) ∧
      (decryptedTag P pw c = filePlainTag c →
        ∃ pt s', vaultRead P pw s = .ok (pt, s') ∧
          some pt = unpad (decryptedBody P pw c))) := by
  refine ⟨?_, ?_, ?_⟩
  · intro h
    simp [vaultRead, h]
  · intro c hc hm
    simp only [vaultRead, hc]
    rw [if_neg hm]
  · intro c hc hm hL hmod
    obtain ⟨u, hu, heval⟩ := readFromVaultFile_eval P hP pw c hL hmod
    constructor
    · intro hne
      simp only [vaultRead, hc]
      rw [if_pos hm, heval, if_neg hne]
    · intro heq
      refine ⟨u, ⟨some (writeToVaultFile P pw u s.rng).1,
        (writeToVaultFile P pw u s.rng).2⟩, ?_, hu.symm⟩
      simp only [vaultRead, hc]
      rw [if_pos hm, heval, if_pos heq]

set_option maxRecDepth 2000000 in
/-- C4 witness: on a concrete valid vault the tags agree and the read
returns the unpadded plaintext. -/
theorem claim4_witness :
    ∃ pt s', vaultRead toyPrims "x" ⟨some demoEmptyFile, demoRng⟩ = .ok (pt, s') ∧
      some pt = unpad (decryptedBody toyPrims "x" demoEmptyFile) :=
  ((claim4_read_semantics_amended toyPrims toyPrims_good "x"
      ⟨some demoEmptyFile, demoRng⟩).2.2 demoEmptyFile rfl (by decide) (by decide)
      (by decide)).2 (by decide)

/-- C7: a successful read re-encrypts the plaintext it just decrypted
under a brand-new salt and IV drawn from the random source — not the
ones stored in the file — and rewrites the whole file before returning.
Two consecutive reads therefore leave on-disk salt/iv pairs equal to two
disjoint segments of the random stream: when those segments differ the
pairs differ, and (for coinciding derived keys) differing IVs force
different ciphertexts for the same logical content. -/
theorem claim7_rewrite_on_read (P : CryptoPrims) (hP : GoodPrims P) (pw : String)
    (s : VaultState) (c d : List Nat)
    (hf : s.file = some c) (hm : c.take 4 = VAULT_MAGIC)
    (hread : readFromVaultFile P pw c = .ok d) (hr : 48 ≤ s.rng.length) :
    ∃ f₁ f₂ s₁ s₂,
      vaultRead P pw s = .ok (d, s₁) ∧
      s₁ = ⟨some f₁, s.rng.drop 24⟩ ∧
      f₁ = (writeToVaultFile P pw d s.rng).1 ∧
      vaultRead P pw s₁ = .ok (d, s₂) ∧
      s₂ = ⟨some f₂, (s.rng.drop 24).drop 24⟩ ∧
      f₂ = (writeToVaultFile P pw d (s.rng.drop 24)).1 ∧
      fileSalt f₁ = s.rng.take 8 ∧ fileIV f₁ = (s.rng.drop 8).take 16 ∧
      fileSalt f₂ = (s.rng.drop 24).take 8 ∧
      fileIV f₂ = ((s.rng.drop 24).drop 8).take 16 ∧
      (s.rng.take 24 ≠ (s.rng.drop 24).take 24 →
        (fileSalt f₁, fileIV f₁) ≠ (fileSalt f₂, fileIV f₂)) ∧
      (P.kdf pw (fileSalt f₁) = P.kdf pw (fileSalt f₂) → fileIV f₁ ≠ fileIV f₂ →
        fileCiphertext f₁ ≠ fileCiphertext f₂) := by
  have hr24 : 24 ≤ s.rng.length := by omega
  have hr24b : 24 ≤ (s.rng.drop 24).length := by
    simp only [List.length_drop]
    omega
  obtain ⟨hA0, hA1, hA2, hA3, hA4, hA5⟩ := writeFile_fields P hP pw d s.rng hr24
  obtain ⟨hB0, hB1, hB2, hB3, hB4, hB5⟩ := writeFile_fields P hP pw d (s.rng.drop 24) hr24b
  refine ⟨(writeToVaultFile P pw d s.rng).1, (writeToVaultFile P pw d (s.rng.drop 24)).1,
    ⟨some (writeToVaultFile P pw d s.rng).1, s.rng.drop 24⟩,
    ⟨some (writeToVaultFile P pw d (s.rng.drop 24)).1, (s.rng.drop 24).drop 24⟩,
    ?_, rfl, rfl, ?_, rfl, rfl, hA1, hA2, hB1, hB2, ?_, ?_⟩
  · simp only [vaultRead, hf]
    rw [if_pos hm, hread]
    simp [write_file_rng]
  · simp only [vaultRead]
    rw [if_pos hA0, readFrom_write P hP pw d s.rng hr24]
    simp [write_file_rng]
  · intro hseg hpair
    apply hseg
    rw [hA1, hA2, hB1, hB2] at hpair
    have h1 := congrArg Prod.fst hpair
    have h2 := congrArg Prod.snd hpair
    simp only [] at h1 h2
    rw [show (24 : Nat) = 8 + 16 from rfl, List.take_add, List.take_add, h1, h2]
  · intro hkey hiv hct
    rw [hA1, hB1] at hkey
    rw [hA2, hB2] at hiv
    rw [hA5, hB5] at hct
    rw [hkey] at hct
    have hL1 : ((s.rng.drop 8).take 16).length = 16 := by
      simp only [List.length_take, List.length_drop]
      omega
    have hL2 : (((s.rng.drop 24).drop 8).take 16).length = 16 := by
      simp only [List.length_take, List.length_drop]
      omega
    exact encryptVault_ct_ne P hP _ d _ _ hL1 hL2 hiv hct

set_option maxRecDepth 2000000 in
/-- C7 witness: two consecutive reads of a concrete vault. -/
theorem claim7_witness :
    ∃ f₁ f₂ s₁ s₂,
      vaultRead toyPrims "x" ⟨some demoEmptyFile, demoRng⟩ = .ok ([], s₁) ∧
      s₁ = ⟨some f₁, demoRng.drop 24⟩ ∧
      f₁ = (writeToVaultFile toyPrims "x" [] demoRng).1 ∧
      vaultRead toyPrims "x" s₁ = .ok ([], s₂) ∧
      s₂ = ⟨some f₂, (demoRng.drop 24).drop 24⟩ ∧
      f₂ = (writeToVaultFile toyPrims "x" [] (demoRng.drop 24)).1 ∧
      fileSalt f₁ = demoRng.take 8 ∧ fileIV f₁ = (demoRng.drop 8).take 16 ∧
      fileSalt f₂ = (demoRng.drop 24).take 8 ∧
      fileIV f₂ = ((demoRng.drop 24).drop 8).take 16 ∧
      (demoRng.take 24 ≠ (demoRng.drop 24).take 24 →
        (fileSalt f₁, fileIV f₁) ≠ (fileSalt f₂, fileIV f₂)) ∧
      (toyPrims.kdf "x" (fileSalt f₁) = toyPrims.kdf "x" (fileSalt f₂) →
        fileIV f₁ ≠ fileIV f₂ → fileCiphertext f₁ ≠ fileCiphertext f₂) :=
  claim7_rewrite_on_read toyPrims toyPrims_good "x" ⟨some demoEmptyFile, demoRng⟩
    demoEmptyFile [] rfl (by decide) (by decide) (by decide)

/-- C9: for an entry present in the table (holding its builtin fields and
a password), a non-revealing `get_entry` returns a copy whose password
field is the fixed filler string and returns the table unchanged — so the
stored `last_revealed` never changes; a revealing access (`get_entry`
without hiding, or `get_password`) updates the stored entry's
`last_revealed` to the current time and returns the true password. -/
theorem claim9_reveal_semantics (fmt : Value → Value) (tbl : Table) (id : String)
    (now : Nat) (e : Entry) (lm lr pv : Value)
    (he : dictGet tbl id = some e)
    (hlm : dictGet e LAST_MODIFIED = some lm)
    (hlr : dictGet e LAST_REVEALED = some lr)
    (hpv : dictGet e PASSWORD = some pv) :
    (∃ cp, get_entry fmt tbl id now true = (.ok cp, tbl) ∧
      dictGet cp PASSWORD = some HIDDEN_PASSWORD) ∧
    (∃ cp, get_entry fmt tbl id now false
        = (.ok cp, dictSet tbl id (dictSet e LAST_REVEALED (Value.num now))) ∧
      dictGet cp PASSWORD = some pv ∧
      dictGet (dictSet tbl id (dictSet e LAST_REVEALED (Value.num now))) id
        = some (dictSet e LAST_REVEALED (Value.num now)) ∧
      dictGet (dictSet e LAST_REVEALED (Value.num now)) LAST_REVEALED
        = some (Value.num now)) ∧
    get_password tbl id now
      = (.ok pv, dictSet tbl id (dictSet e LAST_REVEALED (Value.num now))) := by
  have hPneLR : PASSWORD ≠ LAST_REVEALED := by decide
  have hPneLM : PASSWORD ≠ LAST_MODIFIED := by decide
  have hLMneLR : LAST_MODIFIED ≠ LAST_REVEALED := by decide
  refine ⟨?_, ?_, ?_⟩
  · refine ⟨(if lr.truthy
        then dictSet (dictSet (dictSet e PASSWORD HIDDEN_PASSWORD)
          LAST_MODIFIED (fmt lm)) LAST_REVEALED (fmt lr)
        else dictSet (dictSet (dictSet e PASSWORD HIDDEN_PASSWORD)
          LAST_MODIFIED (fmt lm)) LAST_REVEALED Value.null), ?_, ?_⟩
    · simp [get_entry, he, hlm, hlr]
    · have hkey : ∀ v₂ v₃, dictGet (dictSet (dictSet (dictSet e PASSWORD
          HIDDEN_PASSWORD) LAST_MODIFIED v₂) LAST_REVEALED v₃) PASSWORD
          = some HIDDEN_PASSWORD := by
        intro v₂ v₃
        rw [dictGet_dictSet_other _ _ _ _ hPneLR,
          dictGet_dictSet_other _ _ _ _ hPneLM,
          dictGet_dictSet_self]
      cases ht : lr.truthy with
      | false =>
        simp only [ht, Bool.false_eq_true, if_false]
        exact hkey _ _
      | true =>
        simp only [ht, if_true]
        exact hkey _ _
  · have hlm2 : dictGet (dictSet e LAST_REVEALED (Value.num now)) LAST_MODIFIED
        = some lm := by
      rw [dictGet_dictSet_other _ _ _ _ hLMneLR]
      exact hlm
    have hlr2 : dictGet (dictSet e LAST_REVEALED (Value.num now)) LAST_REVEALED
        = some (Value.num now) := dictGet_dictSet_self _ _ _
    refine ⟨(if (Value.num now).truthy
        then dictSet (dictSet (dictSet e LAST_REVEALED (Value.num now))
          LAST_MODIFIED (fmt lm)) LAST_REVEALED (fmt (Value.num now))
        else dictSet (dictSet (dictSet e LAST_REVEALED (Value.num now))
          LAST_MODIFIED (fmt lm)) LAST_REVEALED Value.null), ?_, ?_,
      dictGet_dictSet_self _ _ _, hlr2⟩
    · simp [get_entry, he, hlm2, hlr2]
    · have hkey : ∀ v₂ v₃, dictGet (dictSet (dictSet (dictSet e LAST_REVEALED
          (Value.num now)) LAST_MODIFIED v₂) LAST_REVEALED v₃) PASSWORD
          = some pv := by
        intro v₂ v₃
        rw [dictGet_dictSet_other _ _ _ _ hPneLR,
          dictGet_dictSet_other _ _ _ _ hPneLM,
          dictGet_dictSet_other _ _ _ _ hPneLR]
        exact hpv
      cases ht : (Value.num now).truthy with
      | false =>
        simp only [ht, Bool.false_eq_true, if_false]
        exact hkey _ _
      | true =>
        simp only [ht, if_true]
        exact hkey _ _
  · have hp1 : dictGet (dictSet e LAST_REVEALED (Value.num now)) PASSWORD
        = some pv := by
      rw [dictGet_dictSet_other _ _ _ _ hPneLR]
      exact hpv
    simp [get_password, he, hp1]

/-- C9 witness: `get_password` on a concrete table reveals the stored
password and stamps `last_revealed`. -/
theorem claim9_witness :
    get_password [("a", [(PASSWORD, Value.str "s3cret"), (LAST_MODIFIED, Value.num 7),
        (LAST_REVEALED, Value.null)])] "a" 9
      = (.ok (Value.str "s3cret"),
        dictSet [("a", [(PASSWORD, Value.str "s3cret"), (LAST_MODIFIED, Value.num 7),
            (LAST_REVEALED, Value.null)])] "a"
          (dictSet [(PASSWORD, Value.str "s3cret"), (LAST_MODIFIED, Value.num 7),
            (LAST_REVEALED, Value.null)] LAST_REVEALED (Value.num 9))) :=
  (claim9_reveal_semantics (fun _ => Value.str "t")
    [("a", [(PASSWORD, Value.str "s3cret"), (LAST_MODIFIED, Value.num 7),
      (LAST_REVEALED, Value.null)])] "a" 9
    [(PASSWORD, Value.str "s3cret"), (LAST_MODIFIED, Value.num 7),
      (LAST_REVEALED, Value.null)] (Value.num 7) Value.null (Value.str "s3cret")
    (by decide) (by decide) (by decide) (by decide)).2.2

end PVLT
